import Mathlib

/-!
Verification of the bandersnatch storage layer
(`src/bandersnatch/storage.py` and
`src/bandersnatch_storage_plugins/filesystem.py`).

The development shallowly embeds the storage operations:
a flat association map from path strings to entries models the
filesystem for the atomic-write primitives (`rewrite`, `update_safe`),
`compare_files`, `copy_file` and `delete`; a recursive tree models
directory structure for `walk`, `find` and `rmdir`; pure functions model
path layout (`Storage.get_json_paths`, the subpath derivation of
`Storage.__init__`), temporary-file naming, the plugin-registry cache
(`load_storage_plugins`) and the chunked hashing functions
(`Storage.hash_file`, `FilesystemStorage.get_hash`).
-/

namespace Bandersnatch

/-! ## Flat filesystem model

Paths are plain strings (as handed to `os.rename`, `os.unlink`,
`os.chmod`).  An entry is a regular file carrying its byte content and
its permission bits, or a directory.  The filesystem is a finite map
represented as an association list with unique keys in well-formed
states; lookups take the first binding.
-/

/-- A filesystem entry: a regular file with byte content and mode bits,
or a directory. -/
inductive Entry where
  | file (content : List Nat) (mode : Nat) : Entry
  | dir : Entry
deriving DecidableEq, Repr

/-- The flat filesystem: a finite map from path strings to entries. -/
def FS : Type := List (String × Entry)

instance : DecidableEq FS := by
  unfold FS
  infer_instance

/-- Look up the entry bound to path `p` (first binding wins). -/
def fsGet (fs : FS) (p : String) : Option Entry :=
  match fs with
  | [] => none
  | (q, e) :: rest => if q = p then some e else fsGet rest p

/-- Model of `os.path.exists` / `Path.exists`. -/
def fsExists (fs : FS) (p : String) : Bool :=
  (fsGet fs p).isSome

/-- Bind path `p` to entry `e`, replacing any previous binding. -/
def fsSet (fs : FS) (p : String) (e : Entry) : FS :=
  match fs with
  | [] => [(p, e)]
  | (q, e₀) :: rest => if q = p then (p, e) :: rest else (q, e₀) :: fsSet rest p e

/-- Model of `os.unlink`: drop the binding of `p`. -/
def fsUnlink (fs : FS) (p : String) : FS :=
  match fs with
  | [] => []
  | (q, e₀) :: rest => if q = p then rest else (q, e₀) :: fsUnlink rest p

/-- Model of `os.chmod p m`: the stored permission bits are `m & 0o7777`. -/
def fsChmod (fs : FS) (p : String) (m : Nat) : FS :=
  match fsGet fs p with
  | some (.file c _) => fsSet fs p (.file c (m % 4096))
  | _ => fs

/-- `FilesystemStorage.compare_files` (filesystem.py lines 119-121):
`filecmp.cmp(file1, file2, shallow=False)`, a full byte-for-byte
comparison.  `filecmp.cmp` answers `False` unless both paths are regular
files whose contents coincide. -/
def compare_files (fs : FS) (p q : String) : Bool :=
  match fsGet fs p, fsGet fs q with
  | some (.file c₁ _), some (.file c₂ _) => c₁ = c₂
  | _, _ => false

/-- `FilesystemStorage.copy_file` (filesystem.py lines 123-128): raise
`FileNotFoundError` (modelled as `none`) when the source is absent,
otherwise `os.rename source dest`.  Renaming a file onto an existing
directory raises, also modelled as `none`. -/
def copy_file (fs : FS) (src dest : String) : Option FS :=
  match fsGet fs src with
  | none => none
  | some e =>
    match fsGet fs dest with
    | some .dir => none
    | _ => some (fsSet (fsUnlink fs src) dest e)

/-! ## Atomic write primitives

`rewrite` and `update_safe` are context managers; the caller-supplied
write block either leaves the temporary file holding some content `x` or
deletes the temporary file (`deleted = true`).  The embedding takes the
final effect of the write block as an argument and computes the state
after the context manager's epilogue.  `tmp` is the name
`tempfile.NamedTemporaryFile` chose; it is fresh, which the theorems
record as hypotheses.
-/

/-- `FilesystemStorage.rewrite` (filesystem.py lines 61-89).  The temp
file is created in the target's directory; after the write block, if the
temp file is gone the operation returns silently, otherwise the temp
file is chmodded to `0o100644` and renamed onto the target via
`copy_file`.  `none` models a raised exception. -/
def rewrite (fs : FS) (target tmp : String) (x : List Nat) (deleted : Bool) :
    Option FS :=
  if deleted then
    some fs
  else
    let fs₁ := fsSet fs tmp (.file x 0o600)
    let fs₂ := fsChmod fs₁ tmp 0o100644
    copy_file fs₂ tmp target

/-- `FilesystemStorage.update_safe` (filesystem.py lines 91-117).  The
temp file is created with mode `0o600`; if the target exists its
permission bits (`st_mode & 0o7777`) are copied onto the temp file.
`has_changed` starts out `False`.  After the write block: a deleted temp
file means silent return; if the target exists and compares equal to the
temp file, the temp file is unlinked; otherwise the temp file is renamed
onto the target and `has_changed` becomes `True`.  Returns the final
filesystem and the reported `has_changed` flag; `none` models a raised
exception. -/
def update_safe (fs : FS) (target tmp : String) (x : List Nat) (deleted : Bool) :
    Option (FS × Bool) :=
  let tmpMode : Nat :=
    match fsGet fs target with
    | some (.file _ m) => m % 4096
    | some .dir => 0o755
    | none => 0o600
  if deleted then
    some (fs, false)
  else
    let fs₁ := fsSet fs tmp (.file x tmpMode)
    if fsExists fs₁ target && compare_files fs₁ target tmp then
      some (fsUnlink fs₁ tmp, false)
    else
      match copy_file fs₁ tmp target with
      | none => none
      | some fs₂ => some (fs₂, true)

/-! ## Deletion (`Storage.delete`, storage.py lines 166-181)

`delete` logs, then — only outside dry-run mode — checks existence,
dispatches to `delete_file` for files and to `rmdir(..., force=True)`
for anything else, and finally returns 0.  The model additionally
records which branch was taken.
-/

/-- Which branch `Storage.delete` took. -/
inductive DeleteAction where
  | dryRunOnly : DeleteAction
  | missingNoop : DeleteAction
  | dispatchedDeleteFile : DeleteAction
  | dispatchedRmdirForce : DeleteAction
deriving DecidableEq, Repr

/-- Does `s` start with the string `p`?  (Helper for the flat model of
`shutil.rmtree`.) -/
def strStarts (p s : String) : Bool :=
  List.take p.data.length s.data = p.data

/-- Flat model of `shutil.rmtree p`: drop `p` and every path below it. -/
def rmtreeFlat (fs : FS) (p : String) : FS :=
  List.filter (fun qe => !(qe.1 = p || strStarts (p ++ "/") qe.1)) fs

/-- `FilesystemStorage.delete_file` (filesystem.py lines 177-185): log,
then (outside dry-run) `path.unlink()`, which raises when the path is
missing or a directory; return 0. -/
def delete_file (fs : FS) (p : String) (dryRun : Bool) : Option (FS × Int) :=
  if dryRun then
    some (fs, 0)
  else
    match fsGet fs p with
    | some (.file _ _) => some (fsUnlink fs p, 0)
    | _ => none

/-- `Storage.delete` (storage.py lines 166-181).  In dry-run mode the
body under `if not dry_run` is skipped entirely and 0 is returned.
Otherwise: a missing path returns 0; a file dispatches to
`delete_file`; anything else dispatches to `rmdir` with `force=True`
(which, with `dry_run=False`, is `shutil.rmtree` followed by return 0).
`none` models a raised exception. -/
def delete (fs : FS) (p : String) (dryRun : Bool) :
    Option (FS × Int × DeleteAction) :=
  if !dryRun then
    match fsGet fs p with
    | none => some (fs, 0, .missingNoop)
    | some (.file _ _) =>
      match delete_file fs p false with
      | some (fs', rc) => some (fs', rc, .dispatchedDeleteFile)
      | none => none
    | some .dir => some (rmtreeFlat fs p, 0, .dispatchedRmdirForce)
  else
    some (fs, 0, .dryRunOnly)

/-! ## Temporary-file naming

`tempfile.NamedTemporaryFile(prefix=..., dir=...)` produces a basename
`prefix + rand` where `rand` is a random 8-character string (the
default suffix is empty).  `rewrite` passes the prefix
`"." + basename + "."` (filesystem.py line 79); `update_safe` passes
the prefix `basename + "."` (filesystem.py line 102).
-/

/-- Basename of the temporary file `rewrite` creates for a target whose
basename is `base`, given the random part `rand`. -/
def rewriteTmpName (base rand : String) : String :=
  "." ++ base ++ "." ++ rand

/-- Basename of the temporary file `update_safe` creates for a target
whose basename is `base`, given the random part `rand`. -/
def updateSafeTmpName (base rand : String) : String :=
  base ++ "." ++ rand

/-- Modelled from the spec: the temporary name consists of a
hidden-style prefix marker (a leading dot, the marker the source's
GlusterFS comment refers to) followed by the target's basename. -/
def hiddenPrefixedSpec (name base : String) : Bool :=
  strStarts ("." ++ base) name

/-! ## Path layout (`Storage.__init__`, `Storage.get_json_paths`)

A pure-path value records whether the path is absolute and its list of
segments, mirroring `pathlib.PurePath`'s parsed form.
-/

/-- A `pathlib` pure path: absolute flag plus segments. -/
structure PPath where
  isAbs : Bool
  segs : List String
deriving DecidableEq, Repr

/-- `p / n` for a single-segment name `n` (the only form the storage
layer uses for layout derivation). -/
def PPath.child (p : PPath) (n : String) : PPath :=
  ⟨p.isAbs, p.segs ++ [n]⟩

/-- `pathlib`'s `/` on two parsed paths: an absolute right operand
replaces the left, otherwise the segments are concatenated. -/
def pjoin (p q : PPath) : PPath :=
  if q.isAbs then q else ⟨p.isAbs, p.segs ++ q.segs⟩

/-- Is `c` one of the characters the canonicalization regex
`[-_.]+` collapses? -/
def isSepChar (c : Char) : Bool :=
  c = '-' || c = '_' || c = '.'

/-- Collapse runs of `-`, `_`, `.` to a single `-` and lower the other
characters; `prevSep` records whether the previous character belonged
to a run. -/
def canonChars : Bool → List Char → List Char
  | _, [] => []
  | prevSep, c :: rest =>
    if isSepChar c then
      if prevSep then canonChars true rest
      else '-' :: canonChars true rest
    else Char.toLower c :: canonChars false rest

/-- The external `packaging.utils.canonicalize_name`:
`re.sub(r"[-_.]+", "-", name).lower()` (ASCII lowering; PyPI package
names are ASCII).  `Storage.canonicalize_package` delegates to it
(storage.py lines 70-72). -/
def canonicalize_name (s : String) : String :=
  ⟨canonChars false s.data⟩

/-- `Storage.get_json_paths` (storage.py lines 74-82), parametrized by
the external canonicalization function: the canonical json and pypi
paths, plus the legacy json path under the display name when it differs
from the canonical one. -/
def get_json_paths (canon : String → String) (jsonBase pypiBase : PPath)
    (name : String) : List PPath :=
  let c := canon name
  let paths := [jsonBase.child c, pypiBase.child c]
  if c ≠ name then paths ++ [jsonBase.child name] else paths

/-- The five path attributes `Storage.__init__` binds when the
configured backend matches. -/
structure StoragePaths where
  mirror_base_path : PPath
  web_base_path : PPath
  json_base_path : PPath
  pypi_base_path : PPath
  simple_base_path : PPath
deriving DecidableEq, Repr

/-- `Storage.__init__` (storage.py lines 53-68).  The configured backend
name defaults to "filesystem" when the key is missing; if it differs
from the instance's declared name the constructor returns immediately
and binds no paths (`none`, the inert instance).  Otherwise the four
subpaths are derived from the mirror root. -/
def storageInit (selfName : String) (configBackend : Option String)
    (mirrorDir : PPath) : Option StoragePaths :=
  let backend := configBackend.getD "filesystem"
  if backend ≠ selfName then none
  else
    let web := mirrorDir.child "web"
    some ⟨mirrorDir, web, web.child "json", web.child "pypi", web.child "simple"⟩

/-! ## Plugin registry (`load_storage_plugins`, storage.py lines 240-276)

A plugin instance is identified by its declared backend name plus an
instance identity (distinct objects from distinct entry points).  The
module-level cache `loaded_storage_plugins` is a map from entry-point
group to the list of instances stored on the first successful
discovery.  `scan` stands for the instances
`pkg_resources.iter_entry_points` would instantiate at this moment.
-/

/-- An instantiated storage plugin: declared name plus object identity. -/
structure Plugin where
  name : String
  instId : Nat
deriving DecidableEq, Repr

/-- The cache `loaded_storage_plugins`. -/
def PluginCache : Type := List (String × List Plugin)

instance : DecidableEq PluginCache := by
  unfold PluginCache
  infer_instance

/-- `dict.get` on the cache. -/
def cacheGet (cache : PluginCache) (g : String) : Option (List Plugin) :=
  match cache with
  | [] => none
  | (h, v) :: rest => if h = g then some v else cacheGet rest g

/-- `loaded_storage_plugins[group] = plugins`. -/
def cacheSet (cache : PluginCache) (g : String) (v : List Plugin) : PluginCache :=
  match cache with
  | [] => [(g, v)]
  | (h, v₀) :: rest =>
    if h = g then (g, v) :: rest else (h, v₀) :: cacheSet rest g v

/-- `load_storage_plugins` (storage.py lines 240-276).  If the cache
holds a truthy (non-empty) list for the group it is returned and the
cache is untouched; otherwise every entry point in `scan` is
instantiated, those whose name equals the enabled backend are kept,
the cache entry is overwritten with them, and they are returned. -/
def load_storage_plugins (cache : PluginCache) (group enabled : String)
    (scan : List Plugin) : List Plugin × PluginCache :=
  let cached := (cacheGet cache group).getD []
  if cached ≠ [] then
    (cached, cache)
  else
    let plugins := List.filter (fun p => p.name = enabled) scan
    (plugins, cacheSet cache group plugins)

/-! ## Directory-tree model

`rmdir`, `walk` and `find` operate on directory hierarchies; a tree node
is a file or a directory with an ordered list of children (the order in
which `iterdir` enumerates them).
-/

/-- A directory-tree node. -/
inductive FSTree where
  | file (name : String) : FSTree
  | dir (name : String) (children : List FSTree) : FSTree

/-- Name of a tree node. -/
def treeName : FSTree → String
  | .file n => n
  | .dir n _ => n

/-! ### `FilesystemStorage.rmdir` (filesystem.py lines 195-230)

The model takes the rendered path of the directory and its children.
It returns the emitted log lines together with an outcome: `ok rc st`
for a normal return of `rc` (`st` is the directory's final state:
`none` when it was removed, `some cs` when it remains with children
`cs`), or `err cs` for a raised `OSError` leaving the directory with
children `cs`.
-/

/-- Outcome of `rmdir`. -/
inductive RmOut where
  | ok (rc : Int) (st : Option (List FSTree)) : RmOut
  | err (cs : List FSTree) : RmOut

/-- Outcome of the `for subdir in path.iterdir()` loop of `rmdir` (only
executed when `dry_run` is false): the loop finished, or returned a
non-zero code, or an exception escaped; each carries the surviving
children. -/
inductive LoopOut where
  | done (remaining : List FSTree) : LoopOut
  | stopped (rc : Int) (remaining : List FSTree) : LoopOut
  | raised (remaining : List FSTree) : LoopOut

mutual

/-- `FilesystemStorage.rmdir` on the directory at `path` with children
`children`.  Follows the source line by line: the `force` branch logs
and — outside dry-run — removes the whole subtree and returns 0 (with
`dry_run` it falls through); the `recurse` branch iterates over the
direct children that are directories, logging each and — outside
dry-run only — recursing; finally the directory itself is logged and —
outside dry-run — removed, raising when children remain. -/
def rmdirTree (path : String) (children : List FSTree)
    (recurse force ignoreErrors dryRun : Bool) : List String × RmOut :=
  let pfx := if dryRun then "[DRY RUN] " else ""
  let forceLogs :=
    if force then [pfx ++ "Forcing removal of files under " ++ path] else []
  if force && !dryRun then
    (forceLogs, .ok 0 none)
  else
    let recStep : List String × LoopOut :=
      if recurse then
        if !dryRun then
          rmdirLoop path children recurse force ignoreErrors
        else
          (children.filterMap (fun t =>
            match t with
            | .dir n _ => some (pfx ++ "Removing directory: " ++ path ++ "/" ++ n)
            | .file _ => none), .done children)
      else ([], .done children)
    match recStep with
    | (recLogs, .stopped rc remaining) =>
      (forceLogs ++ recLogs, .ok rc (some remaining))
    | (recLogs, .raised remaining) =>
      (forceLogs ++ recLogs, .err remaining)
    | (recLogs, .done remaining) =>
      let logs := forceLogs ++ recLogs ++ [pfx ++ "Removing directory: " ++ path]
      if dryRun then
        (logs, .ok 0 (some remaining))
      else
        match remaining with
        | [] => (logs, .ok 0 none)
        | _ :: _ => (logs, .err remaining)

/-- The child loop of `rmdir` outside dry-run mode: files are skipped
(`continue`), each child directory is logged and recursed into; a
non-zero return code or an exception aborts the loop. -/
def rmdirLoop (parentPath : String) (cs : List FSTree)
    (recurse force ignoreErrors : Bool) : List String × LoopOut :=
  match cs with
  | [] => ([], .done [])
  | .file n :: rest =>
    let (logs, out) := rmdirLoop parentPath rest recurse force ignoreErrors
    (logs,
      match out with
      | .done remaining => .done (.file n :: remaining)
      | .stopped rc remaining => .stopped rc (.file n :: remaining)
      | .raised remaining => .raised (.file n :: remaining))
  | .dir n ccs :: rest =>
    let childPath := parentPath ++ "/" ++ n
    let headLog := "Removing directory: " ++ childPath
    let (clogs, cres) := rmdirTree childPath ccs recurse force ignoreErrors false
    match cres with
    | .err ccs' => (headLog :: clogs, .raised (.dir n ccs' :: rest))
    | .ok rc st =>
      let childLeft : List FSTree :=
        match st with
        | none => []
        | some ccs' => [.dir n ccs']
      if rc ≠ 0 then
        (headLog :: clogs, .stopped rc (childLeft ++ rest))
      else
        let (rlogs, rout) := rmdirLoop parentPath rest recurse force ignoreErrors
        (headLog :: clogs ++ rlogs,
          match rout with
          | .done remaining => .done (childLeft ++ remaining)
          | .stopped rc' remaining => .stopped rc' (childLeft ++ remaining)
          | .raised remaining => .raised (childLeft ++ remaining))

end

/-! ### `FilesystemStorage.walk` and `find` (filesystem.py lines 35-59) -/

/-- `FilesystemStorage.walk` on the directory at `p` with children
`cs`: files are collected as `p/name`; a directory contributes `p/name`
(when `dirs`), then `pjoin (p/name) sub` for every `sub` in the
recursive walk of the subdirectory — the source computes
`pth / subpath` with `pathlib`'s join, which is where an absolute
`subpath` replaces `pth`. -/
def walkL (p : PPath) (dirs : Bool) (cs : List FSTree) : List PPath :=
  match cs with
  | [] => []
  | .file n :: rest => p.child n :: walkL p dirs rest
  | .dir n ccs :: rest =>
    (if dirs then [p.child n] else []) ++
      (walkL (p.child n) dirs ccs).map (fun sub => pjoin (p.child n) sub) ++
      walkL p dirs rest

/-- `pathlib.PurePath._cparts`, the key `PurePath.__lt__` compares:
the drive/root marker (just `"/"` for an absolute POSIX path) followed
by the segments. -/
def cparts (p : PPath) : List String :=
  (if p.isAbs then ["/"] else []) ++ p.segs

/-- Lexicographic comparison of `_cparts` lists with string order:
`PurePath.__lt__`, made reflexive (a `≤` for sorting). -/
def lexLe : List String → List String → Bool
  | [], _ => true
  | _ :: _, [] => false
  | a :: as, b :: bs => if a < b then true else if b < a then false else lexLe as bs

/-- The order `results.sort()` sorts by: `PurePath.__lt__`. -/
def pathLe (p q : PPath) : Prop :=
  lexLe (cparts p) (cparts q) = true

instance : DecidableRel pathLe := fun p q => by
  unfold pathLe
  infer_instance

/-- `Path.relative_to(root)`: defined when `root`'s parse is a prefix
of the path's; returns the remaining segments, `none` models the
`ValueError`. -/
def relTo (root p : PPath) : Option (List String) :=
  if root.isAbs = p.isAbs && List.take root.segs.length p.segs = root.segs then
    some (List.drop root.segs.length p.segs)
  else
    none

/-- `FilesystemStorage.find` (filesystem.py lines 50-59): walk, sort
(`list.sort` is a stable sort by `PurePath.__lt__`; the model uses
insertion sort, which is stable), render each result relative to the
root, join with newlines. -/
def find (root : PPath) (children : List FSTree) (dirs : Bool) : Option String := do
  let results := walkL root dirs children
  let sorted := List.insertionSort pathLe results
  let rels ← sorted.mapM (relTo root)
  return String.intercalate "\n" (rels.map (String.intercalate "/"))

/-- Modelled from the spec: the relative descendant enumeration `find`
is claimed to render — every descendant of the root as its list of name
segments, files always, directories exactly when `dirs`, in the tree's
preorder. -/
def relWalk (dirs : Bool) (cs : List FSTree) : List (List String) :=
  match cs with
  | [] => []
  | .file n :: rest => [n] :: relWalk dirs rest
  | .dir n ccs :: rest =>
    (if dirs then [[n]] else []) ++
      (relWalk dirs ccs).map (fun s => n :: s) ++
      relWalk dirs rest

/-- Modelled from the spec: `segs` names a descendant entry of the
forest `cs` — a direct child for a single segment (a directory only
when `dirs`), otherwise a descendant of the named child directory. -/
def isEntry (dirs : Bool) : List FSTree → List String → Bool
  | [], _ => false
  | _ :: _, [] => false
  | t :: ts, n :: rest =>
    (match t, rest with
     | .file m, [] => m = n
     | .dir m _, [] => dirs && m = n
     | .dir m ccs, _ :: _ => m = n && isEntry dirs ccs rest
     | .file _, _ :: _ => false) ||
    isEntry dirs ts (n :: rest)

/-- The order `segLe` on relative segment lists: the restriction of the
path order to paths sharing a common prefix. -/
def segLe (a b : List String) : Prop :=
  lexLe a b = true

instance : DecidableRel segLe := fun a b => by
  unfold segLe
  infer_instance

/-- Modelled from the spec: the string `find` is claimed to return —
the relative descendant paths of the root, sorted in path order,
rendered with `/` and joined with newlines. -/
def findSpec (cs : List FSTree) (dirs : Bool) : String :=
  String.intercalate "\n"
    ((List.insertionSort segLe (relWalk dirs cs)).map (String.intercalate "/"))

/-- Sibling names are distinct at every level — true of every real
directory tree, where a name appears at most once per directory. -/
def goodForest : List FSTree → Bool
  | [] => true
  | t :: ts =>
    !(decide (treeName t ∈ List.map treeName ts)) &&
    (match t with
     | .file _ => true
     | .dir _ ccs => goodForest ccs) &&
    goodForest ts

/-! ## Chunked hashing (`Storage.hash_file`, `FilesystemStorage.get_hash`)

A streaming digest (`hashlib`'s interface) absorbs its input byte by
byte into an internal state; `update` on a chunk is the fold of the
byte-step over the chunk, and `hexdigest` renders the final state.
-/

/-- A streaming digest algorithm: internal state, initial state, the
per-byte absorption step, and the final hex rendering. -/
structure HashAlgo where
  S : Type
  init : S
  step : S → Nat → S
  hex : S → String

/-- `h.update(chunk)`: absorb a chunk byte by byte. -/
def HashAlgo.upd (A : HashAlgo) (s : A.S) (chunk : List Nat) : A.S :=
  chunk.foldl A.step s

/-- The successive chunks a loop of `f.read(n)` yields for a file whose
content is `l` (each `take n`, until the remainder is empty). -/
def chunksOf (n : Nat) : List α → List (List α)
  | [] => []
  | a :: l => (a :: l).take n :: chunksOf n (List.drop (n - 1) l)
termination_by l => l.length
decreasing_by
  simp only [List.length_cons]
  exact Nat.lt_succ_of_le (List.length_drop (n - 1) l ▸ Nat.sub_le _ _)

/-- `Storage.hash_file` (storage.py lines 95-100): absorb the file in
8192-byte chunks, render the hex digest. -/
def hash_file (A : HashAlgo) (content : List Nat) : String :=
  A.hex ((chunksOf 8192 content).foldl A.upd A.init)

/-- `FilesystemStorage.get_hash` (filesystem.py lines 250-258): absorb
the file in `128 * 1024`-byte chunks, render the hex digest. -/
def get_hash (A : HashAlgo) (content : List Nat) : String :=
  A.hex ((chunksOf (128 * 1024) content).foldl A.upd A.init)

/-! ## Helper lemmas about the flat filesystem map -/

theorem fsGet_fsSet_self (fs : FS) (p : String) (e : Entry) :
    fsGet (fsSet fs p e) p = some e := by
  induction fs with
  | nil => simp [fsSet, fsGet]
  | cons hd tl ih =>
    obtain ⟨q, e₀⟩ := hd
    by_cases h : q = p
    · simp [fsSet, fsGet, h]
    · simp [fsSet, fsGet, h, ih]

theorem fsGet_fsSet_ne (fs : FS) (p : String) (e : Entry) (q : String)
    (h : q ≠ p) : fsGet (fsSet fs p e) q = fsGet fs q := by
  induction fs with
  | nil => simp [fsSet, fsGet, Ne.symm h]
  | cons hd tl ih =>
    obtain ⟨r, e₀⟩ := hd
    by_cases hr : r = p
    · subst hr
      simp [fsSet, fsGet, Ne.symm h]
    · simp [fsSet, fsGet, hr, ih]

theorem fsUnlink_fsSet_fresh (fs : FS) (p : String) (e : Entry)
    (h : fsGet fs p = none) : fsUnlink (fsSet fs p e) p = fs := by
  induction fs with
  | nil => simp [fsSet, fsUnlink]
  | cons hd tl ih =>
    obtain ⟨q, e₀⟩ := hd
    by_cases hq : q = p
    · simp [fsGet, hq] at h
    · simp [fsGet, hq] at h
      simp [fsSet, fsUnlink, hq, ih h]

theorem fsGet_fsUnlink_ne (fs : FS) (p q : String) (h : q ≠ p) :
    fsGet (fsUnlink fs p) q = fsGet fs q := by
  induction fs with
  | nil => simp [fsUnlink, fsGet]
  | cons hd tl ih =>
    obtain ⟨r, e₀⟩ := hd
    by_cases hr : r = p
    · subst hr
      simp [fsUnlink, fsGet, Ne.symm h]
    · simp [fsUnlink, fsGet, hr, ih]

theorem fsSet_fsSet (fs : FS) (p : String) (e₁ e₂ : Entry) :
    fsSet (fsSet fs p e₁) p e₂ = fsSet fs p e₂ := by
  induction fs with
  | nil => simp [fsSet]
  | cons hd tl ih =>
    obtain ⟨q, e₀⟩ := hd
    by_cases hq : q = p
    · simp [fsSet, hq]
    · simp [fsSet, hq, ih]

/-- When the target is a file whose content already equals the temp
content, `update_safe` unlinks the temp file, performs no rename, and
reports `has_changed = False`, leaving the filesystem exactly as it
was. -/
theorem update_safe_unchanged (fs : FS) (target tmp : String) (x : List Nat)
    (m : Nat) (hne : tmp ≠ target) (hfresh : fsGet fs tmp = none)
    (htgt : fsGet fs target = some (.file x m)) :
    update_safe fs target tmp x false = some (fs, false) := by
  have h1 : fsGet (fsSet fs tmp (Entry.file x (m % 4096))) target
      = some (.file x m) := by
    rw [fsGet_fsSet_ne _ _ _ _ (Ne.symm hne), htgt]
  have h2 : fsGet (fsSet fs tmp (Entry.file x (m % 4096))) tmp
      = some (.file x (m % 4096)) := fsGet_fsSet_self _ _ _
  simp only [update_safe, htgt, if_neg (by simp : ¬(false = true)), Bool.false_eq_true,
    if_false]
  simp only [fsExists, compare_files, h1, h2, Option.isSome_some, decide_eq_true_eq,
    Bool.and_self, if_pos, Bool.and_eq_true, decide_True, and_self]
  rw [fsUnlink_fsSet_fresh _ _ _ hfresh]

/-- When the target is absent or is a file with different content,
`update_safe` renames the temp file onto the target and reports
`has_changed = True`; the resulting filesystem is the original with the
target bound to the new content (for some permission bits `mo`). -/
theorem update_safe_changed (fs : FS) (target tmp : String) (x : List Nat)
    (hne : tmp ≠ target) (hfresh : fsGet fs tmp = none)
    (htgt : fsGet fs target = none ∨
      ∃ c m, fsGet fs target = some (.file c m) ∧ c ≠ x) :
    ∃ mo, update_safe fs target tmp x false =
      some (fsSet fs target (.file x mo), true) := by
  rcases htgt with htgt | ⟨c, m, htgt, hcx⟩
  · refine ⟨384, ?_⟩
    have h1 : fsGet (fsSet fs tmp (Entry.file x 384)) target = none := by
      rw [fsGet_fsSet_ne _ _ _ _ (Ne.symm hne), htgt]
    have h2 : fsGet (fsSet fs tmp (Entry.file x 384)) tmp
        = some (.file x 384) := fsGet_fsSet_self _ _ _
    simp only [update_safe, htgt, Bool.false_eq_true, if_false]
    simp only [fsExists, h1, Option.isSome_none, Bool.false_and, Bool.false_eq_true,
      if_false]
    simp only [copy_file, h1, h2]
    rw [fsUnlink_fsSet_fresh _ _ _ hfresh]
  · refine ⟨m % 4096, ?_⟩
    have h1 : fsGet (fsSet fs tmp (Entry.file x (m % 4096))) target
        = some (.file c m) := by
      rw [fsGet_fsSet_ne _ _ _ _ (Ne.symm hne), htgt]
    have h2 : fsGet (fsSet fs tmp (Entry.file x (m % 4096))) tmp
        = some (.file x (m % 4096)) := fsGet_fsSet_self _ _ _
    simp only [update_safe, htgt, Bool.false_eq_true, if_false]
    simp only [fsExists, compare_files, h1, h2, Option.isSome_some, Bool.true_and,
      decide_eq_true_eq]
    rw [if_neg (by simp [hcx])]
    simp only [copy_file, h1, h2]
    rw [fsUnlink_fsSet_fresh _ _ _ hfresh]

/-- Claim C1: when `update_safe(T)`'s write block completes with the
temp file still present: if `T` already exists with byte-identical
content (full byte-for-byte comparison), the temp file is unlinked and
`T` is left completely untouched (no rename) with outcome unchanged
(`has_changed` stays `False`); otherwise the temp file is renamed onto
`T` and outcome changed (`has_changed = True`) is reported, so a second
`update_safe(T)` call writing the same content reports unchanged and
performs no rename. -/
theorem update_safe_write_behavior (fs : FS) (target tmp : String)
    (x : List Nat) (hne : tmp ≠ target) (hfresh : fsGet fs tmp = none) :
    (∀ m, fsGet fs target = some (.file x m) →
        update_safe fs target tmp x false = some (fs, false)) ∧
    ((fsGet fs target = none ∨
        ∃ c m, fsGet fs target = some (.file c m) ∧ c ≠ x) →
      ∃ fs', update_safe fs target tmp x false = some (fs', true) ∧
        (∃ m', fsGet fs' target = some (.file x m')) ∧
        fsGet fs' tmp = none ∧
        (∀ q, q ≠ target → q ≠ tmp → fsGet fs' q = fsGet fs q) ∧
        (∀ tmp₂, tmp₂ ≠ target → fsGet fs' tmp₂ = none →
            update_safe fs' target tmp₂ x false = some (fs', false))) := by
  constructor
  · intro m htgt
    exact update_safe_unchanged fs target tmp x m hne hfresh htgt
  · intro htgt
    obtain ⟨mo, hmo⟩ := update_safe_changed fs target tmp x hne hfresh htgt
    refine ⟨fsSet fs target (.file x mo), hmo,
      ⟨mo, fsGet_fsSet_self _ _ _⟩, ?_, ?_, ?_⟩
    · rw [fsGet_fsSet_ne _ _ _ _ hne]
      exact hfresh
    · intro q hqt _
      rw [fsGet_fsSet_ne _ _ _ _ hqt]
    · intro tmp₂ h2t h2fresh
      exact update_safe_unchanged _ target tmp₂ x mo h2t h2fresh
        (fsGet_fsSet_self _ _ _)

/-- Witness for C1: on a file `t` holding bytes `[1, 2]`, an
`update_safe` that writes the same two bytes reports unchanged and
leaves the filesystem identical. -/
theorem update_safe_write_behavior_witness :
    update_safe [("t", Entry.file [1, 2] 420)] "t" "t.abc" [1, 2] false =
      some ([("t", Entry.file [1, 2] 420)], false) :=
  (update_safe_write_behavior [("t", Entry.file [1, 2] 420)] "t" "t.abc"
      [1, 2] (by decide) (by decide)).1 420 rfl

/-- Claim C5: a `rewrite(T)` whose write block writes `x` and keeps the
temp file forces the temp file's permission bits to `0o644` and renames
it onto `T`, after which `T` holds exactly `x` with mode `0o644` and
the temp file is gone; a write block that deletes the temp file makes
`rewrite` a silent no-op leaving the filesystem (and hence `T`, present
or absent) unchanged. -/
theorem rewrite_commit_behavior (fs : FS) (target tmp : String)
    (x : List Nat) (hne : tmp ≠ target) (hfresh : fsGet fs tmp = none)
    (hnd : fsGet fs target ≠ some .dir) :
    (rewrite fs target tmp x false = some (fsSet fs target (.file x 0o644)) ∧
      fsGet (fsSet fs target (.file x 0o644)) target = some (.file x 0o644) ∧
      fsGet (fsSet fs target (.file x 0o644)) tmp = none) ∧
    rewrite fs target tmp x true = some fs := by
  refine ⟨⟨?_, fsGet_fsSet_self _ _ _, ?_⟩, by simp [rewrite]⟩
  · have h2 : fsGet (fsSet fs tmp (Entry.file x 384)) tmp
        = some (.file x 384) := fsGet_fsSet_self _ _ _
    have hm : (33188 : Nat) % 4096 = 420 := by norm_num
    simp only [rewrite, Bool.false_eq_true, if_false, fsChmod, h2, hm, fsSet_fsSet]
    have h3 : fsGet (fsSet fs tmp (Entry.file x 420)) tmp
        = some (.file x 420) := fsGet_fsSet_self _ _ _
    have h4 : fsGet (fsSet fs tmp (Entry.file x 420)) target = fsGet fs target :=
      fsGet_fsSet_ne _ _ _ _ (Ne.symm hne)
    simp only [copy_file, h3, h4]
    rcases he : fsGet fs target with _ | e
    · rw [fsUnlink_fsSet_fresh _ _ _ hfresh]
    · cases e with
      | file c m => rw [fsUnlink_fsSet_fresh _ _ _ hfresh]
      | dir => exact absurd he hnd
  · rw [fsGet_fsSet_ne _ _ _ _ hne]
    exact hfresh

/-- Witness for C5: rewriting an existing one-byte file `t` with bytes
`[7]` leaves `t` holding `[7]` with mode `0o644`, and the deleting
variant leaves the filesystem untouched. -/
theorem rewrite_commit_behavior_witness :
    rewrite [("t", Entry.file [1] 256)] "t" ".t.abc" [7] false =
      some [("t", Entry.file [7] 420)] ∧
    rewrite [("t", Entry.file [1] 256)] "t" ".t.abc" [7] true =
      some [("t", Entry.file [1] 256)] :=
  ⟨((rewrite_commit_behavior [("t", Entry.file [1] 256)] "t" ".t.abc" [7]
      (by decide) (by decide) (by decide)).1).1,
    (rewrite_commit_behavior [("t", Entry.file [1] 256)] "t" ".t.abc" [7]
      (by decide) (by decide) (by decide)).2⟩

/-- Claim C7: `delete` on a missing path returns 0 without raising in
both dry-run and real mode; in dry-run mode it returns 0 leaving the
filesystem untouched; for an existing file it dispatches to
`delete_file`, and for an existing directory it dispatches to `rmdir`
with `force=True` (a destructive recursive removal). -/
theorem delete_dispatch_behavior (fs : FS) (p : String) :
    (fsGet fs p = none →
        delete fs p true = some (fs, 0, .dryRunOnly) ∧
        delete fs p false = some (fs, 0, .missingNoop)) ∧
    (delete fs p true = some (fs, 0, .dryRunOnly)) ∧
    (∀ c m, fsGet fs p = some (.file c m) →
        delete fs p false = some (fsUnlink fs p, 0, .dispatchedDeleteFile)) ∧
    (fsGet fs p = some .dir →
        delete fs p false = some (rmtreeFlat fs p, 0, .dispatchedRmdirForce)) := by
  refine ⟨?_, by simp [delete], ?_, ?_⟩
  · intro hmiss
    exact ⟨by simp [delete], by simp [delete, hmiss]⟩
  · intro c m htgt
    simp [delete, delete_file, htgt]
  · intro htgt
    simp [delete, htgt]

/-- Witness for C7: deleting the missing path `x` from an empty
filesystem returns 0 in real mode, and deleting the existing file `f`
dispatches to `delete_file` and removes it. -/
theorem delete_dispatch_behavior_witness :
    delete ([] : FS) "x" false = some ([], 0, .missingNoop) ∧
    delete [("f", Entry.file [1] 420)] "f" false =
      some ([], 0, .dispatchedDeleteFile) :=
  ⟨((delete_dispatch_behavior [] "x").1 rfl).2,
    (delete_dispatch_behavior [("f", Entry.file [1] 420)] "f").2.2.1 [1] 420 rfl⟩

/-- Claim C4: `get_json_paths(N)` returns exactly
`[json_base/C, pypi_base/C]` when the canonical form `C` equals `N`,
and `[json_base/C, pypi_base/C, json_base/N]` when it differs;
concretely, for name `Foo-Bar` under root `M` it returns
`M/web/json/foo-bar`, `M/web/pypi/foo-bar`, `M/web/json/Foo-Bar`. -/
theorem get_json_paths_order (canon : String → String)
    (jsonBase pypiBase : PPath) (name : String) :
    (canon name = name →
      get_json_paths canon jsonBase pypiBase name =
        [jsonBase.child (canon name), pypiBase.child (canon name)]) ∧
    (canon name ≠ name →
      get_json_paths canon jsonBase pypiBase name =
        [jsonBase.child (canon name), pypiBase.child (canon name),
          jsonBase.child name]) ∧
    List.map (fun p => String.intercalate "/" p.segs)
      (get_json_paths canonicalize_name ⟨false, ["M", "web", "json"]⟩
        ⟨false, ["M", "web", "pypi"]⟩ "Foo-Bar") =
      ["M/web/json/foo-bar", "M/web/pypi/foo-bar", "M/web/json/Foo-Bar"] := by
  refine ⟨fun h => by simp [get_json_paths, h], fun h => by simp [get_json_paths, h],
    by decide⟩

/-- Witness for C4: the canonical form of `Foo-Bar` differs from it, so
the legacy path is appended. -/
theorem get_json_paths_order_witness :
    get_json_paths canonicalize_name ⟨false, ["M", "web", "json"]⟩
        ⟨false, ["M", "web", "pypi"]⟩ "Foo-Bar" =
      [⟨false, ["M", "web", "json", "foo-bar"]⟩,
        ⟨false, ["M", "web", "pypi", "foo-bar"]⟩,
        ⟨false, ["M", "web", "json", "Foo-Bar"]⟩] :=
  (get_json_paths_order canonicalize_name ⟨false, ["M", "web", "json"]⟩
      ⟨false, ["M", "web", "pypi"]⟩ "Foo-Bar").2.1 (by decide)

/-- Claim C9: construction with a declared name different from the
configured backend name binds no mirror paths (the instance is inert);
on a match the four subpaths are derived deterministically from the
mirror root as `web = R/web`, `json = web/json`, `pypi = web/pypi`,
`simple = web/simple`.  (The embedding is purely functional, so the
derived record is immutable by construction: no modelled operation
takes or returns a changed `StoragePaths`.) -/
theorem storage_init_paths (selfName : String) (cfg : Option String)
    (root : PPath) :
    (cfg.getD "filesystem" ≠ selfName → storageInit selfName cfg root = none) ∧
    (cfg.getD "filesystem" = selfName →
      storageInit selfName cfg root =
        some ⟨root, root.child "web", (root.child "web").child "json",
          (root.child "web").child "pypi", (root.child "web").child "simple"⟩) :=
  ⟨fun h => by simp [storageInit, h], fun h => by simp [storageInit, h]⟩

/-- Witness for C9: a `filesystem` instance is inert under a `swift`
configuration, and binds the four subpaths under `/m` when the
configuration matches. -/
theorem storage_init_paths_witness :
    storageInit "filesystem" (some "swift") ⟨true, ["m"]⟩ = none ∧
    storageInit "filesystem" none ⟨true, ["m"]⟩ =
      some ⟨⟨true, ["m"]⟩, ⟨true, ["m", "web"]⟩, ⟨true, ["m", "web", "json"]⟩,
        ⟨true, ["m", "web", "pypi"]⟩, ⟨true, ["m", "web", "simple"]⟩⟩ :=
  ⟨(storage_init_paths "filesystem" (some "swift") ⟨true, ["m"]⟩).1 (by decide),
    (storage_init_paths "filesystem" none ⟨true, ["m"]⟩).2 rfl⟩

/-- Counterexample to claim C6: the claim asserts that both `rewrite`
and `update_safe` name their temp file with a hidden-style prefix
marker followed by the target's basename, but `update_safe`'s temp name
starts with the basename itself — there is no hidden marker. -/
theorem update_safe_tmp_name_counterexample :
    hiddenPrefixedSpec (rewriteTmpName "foo" "abc12345") "foo" = true ∧
    hiddenPrefixedSpec (updateSafeTmpName "foo" "abc12345") "foo" = false ∧
    updateSafeTmpName "foo" "abc12345" = "foo.abc12345" := by
  decide

/-- Claim C6 (amended): `rewrite`'s temp name is hidden-style prefixed
(`"." + basename + "." + rand`), while `update_safe`'s is
`basename + "." + rand` with no hidden marker; both temp names differ
from the target's basename. -/
theorem tmp_name_behavior (base rand : String) :
    hiddenPrefixedSpec (rewriteTmpName base rand) base = true ∧
    rewriteTmpName base rand ≠ base ∧
    updateSafeTmpName base rand ≠ base := by
  refine ⟨?_, ?_, ?_⟩
  · simp only [hiddenPrefixedSpec, rewriteTmpName, strStarts, decide_eq_true_eq]
    have : "." ++ base ++ "." ++ rand = ("." ++ base) ++ ("." ++ rand) := by
      simp [String.append_assoc]
    rw [this]
    simp only [String.data_append]
    exact List.take_left _ _
  · intro h
    have hl := congrArg String.length h
    simp only [rewriteTmpName, String.length_append] at hl
    have h1 : ("." : String).length = 1 := rfl
    rw [h1] at hl
    omega
  · intro h
    have hl := congrArg String.length h
    simp only [updateSafeTmpName, String.length_append] at hl
    have h1 : ("." : String).length = 1 := rfl
    rw [h1] at hl
    omega

theorem cacheGet_cacheSet_self (cache : PluginCache) (g : String)
    (v : List Plugin) : cacheGet (cacheSet cache g v) g = some v := by
  induction cache with
  | nil => simp [cacheSet, cacheGet]
  | cons hd tl ih =>
    obtain ⟨h, v₀⟩ := hd
    by_cases hh : h = g
    · simp [cacheSet, cacheGet, hh]
    · simp [cacheSet, cacheGet, hh, ih]

/-- Counterexample to claim C3: when the first discovery yields the
empty set, the cache entry `[]` is falsy, so a second call with the
same group re-enumerates the discovery source and can return a
different set — the memo is not "populated at most once". -/
theorem plugin_cache_empty_counterexample :
    (load_storage_plugins [] "g" "filesystem" []).1 = [] ∧
    (load_storage_plugins [] "g" "filesystem" []).2 = [("g", [])] ∧
    (load_storage_plugins (load_storage_plugins [] "g" "filesystem" []).2
        "g" "filesystem" [⟨"filesystem", 0⟩]).1 = [⟨"filesystem", 0⟩] ∧
    (load_storage_plugins (load_storage_plugins [] "g" "filesystem" []).2
        "g" "filesystem" [⟨"filesystem", 0⟩]).1 ≠
      (load_storage_plugins [] "g" "filesystem" []).1 := by
  decide

/-- Claim C3 (amended): the memo is populated at most once per group
provided the first discovery yields a non-empty set — any call that
returns a non-empty plugin list freezes the cache, and every later
call with the same group returns that identical list without
re-enumerating, even under a different enabled backend or a changed
discovery source; a call whose discovery yields the empty set stores a
falsy entry, which later calls do not treat as populated. -/
theorem plugin_cache_nonempty_memo (cache : PluginCache)
    (group enabled : String) (scan : List Plugin)
    (hne : (load_storage_plugins cache group enabled scan).1 ≠ []) :
    ∀ enabled₂ scan₂,
      load_storage_plugins (load_storage_plugins cache group enabled scan).2
          group enabled₂ scan₂ =
        ((load_storage_plugins cache group enabled scan).1,
          (load_storage_plugins cache group enabled scan).2) := by
  intro enabled₂ scan₂
  by_cases hc : (cacheGet cache group).getD [] = []
  · have h1 : load_storage_plugins cache group enabled scan =
        (List.filter (fun p => p.name = enabled) scan,
          cacheSet cache group (List.filter (fun p => p.name = enabled) scan)) := by
      simp [load_storage_plugins, hc]
    rw [h1] at hne ⊢
    simp only at hne ⊢
    simp [load_storage_plugins, cacheGet_cacheSet_self, hne]
  · have h1 : load_storage_plugins cache group enabled scan =
        ((cacheGet cache group).getD [], cache) := by
      simp [load_storage_plugins, hc]
    rw [h1]
    simp [load_storage_plugins, hc]

/-- Witness for C3 (amended): after a discovery that found the
`filesystem` plugin, a second call with a different enabled name and an
empty discovery source still returns the cached plugin list and leaves
the cache unchanged. -/
theorem plugin_cache_nonempty_memo_witness :
    load_storage_plugins [("g", [(⟨"filesystem", 0⟩ : Plugin)])] "g" "swift" [] =
      ([(⟨"filesystem", 0⟩ : Plugin)], [("g", [(⟨"filesystem", 0⟩ : Plugin)])]) :=
  plugin_cache_nonempty_memo [] "g" "filesystem" [⟨"filesystem", 0⟩]
    (by decide) "swift" []

/-- Counterexample to claim C2: on the tree `p/a/b` (nested empty
directories) a dry-run `rmdir` with `recurse=True` logs only the direct
child `p/a` and `p` itself — it never visits `p/a/b` — while the real
run logs five directory removals, so the dry run does not walk the tree
identically to a real run; moreover on a directory containing a file
the dry run returns 0 while the real run raises, so the return-code
path is not exercised identically either. -/
theorem rmdir_dry_run_walk_counterexample :
    (rmdirTree "p" [.dir "a" [.dir "b" []]] true false false true).1 =
      ["[DRY RUN] Removing directory: p/a", "[DRY RUN] Removing directory: p"] ∧
    (rmdirTree "p" [.dir "a" [.dir "b" []]] true false false false).1 =
      ["Removing directory: p/a", "Removing directory: p/a/b",
        "Removing directory: p/a/b", "Removing directory: p/a",
        "Removing directory: p"] ∧
    (rmdirTree "p" [.dir "a" [.dir "b" []]] true false false true).1.length ≠
      (rmdirTree "p" [.dir "a" [.dir "b" []]] true false false false).1.length ∧
    (rmdirTree "p" [.file "x"] true false false true).2 =
      RmOut.ok 0 (some [.file "x"]) ∧
    (rmdirTree "p" [.file "x"] true false false false).2 =
      RmOut.err [.file "x"] := by
  refine ⟨by simp [rmdirTree], by simp [rmdirTree, rmdirLoop], ?_,
    by simp [rmdirTree, rmdirLoop], by simp [rmdirTree, rmdirLoop]⟩
  have h1 : (rmdirTree "p" [.dir "a" [.dir "b" []]] true false false true).1 =
      ["[DRY RUN] Removing directory: p/a", "[DRY RUN] Removing directory: p"] := by
    simp [rmdirTree]
  have h2 : (rmdirTree "p" [.dir "a" [.dir "b" []]] true false false false).1 =
      ["Removing directory: p/a", "Removing directory: p/a/b",
        "Removing directory: p/a/b", "Removing directory: p/a",
        "Removing directory: p"] := by
    simp [rmdirTree, rmdirLoop]
  rw [h1, h2]
  decide

/-- Claim C2 (amended): a dry-run `rmdir` performs no filesystem
mutation and always returns 0, and it logs — with the dry-run prefix —
the force message when `force` is set, the direct child directories
when `recurse` is set, and the directory itself; it does not recurse
into subdirectories, so its log and outcome need not match a real
run's. -/
theorem rmdir_dry_run_behavior (path : String) (children : List FSTree)
    (recurse force ignoreErrors : Bool) :
    rmdirTree path children recurse force ignoreErrors true =
      ((if force then ["[DRY RUN] Forcing removal of files under " ++ path]
        else []) ++
        (if recurse then
          children.filterMap (fun t =>
            match t with
            | .dir n _ =>
              some ("[DRY RUN] Removing directory: " ++ path ++ "/" ++ n)
            | .file _ => none)
        else []) ++
        ["[DRY RUN] Removing directory: " ++ path],
      .ok 0 (some children)) := by
  cases force <;> cases recurse <;> simp [rmdirTree]

theorem HashAlgo.upd_append (A : HashAlgo) (s : A.S) (x y : List Nat) :
    A.upd s (x ++ y) = A.upd (A.upd s x) y :=
  List.foldl_append _ _ _ _

/-- Absorbing a file chunk by chunk (any positive chunk size) is
absorbing it whole. -/
theorem foldl_chunksOf (A : HashAlgo) (n : Nat) (hn : 1 ≤ n) :
    ∀ (k : Nat) (l : List Nat), l.length ≤ k → ∀ s : A.S,
      (chunksOf n l).foldl A.upd s = A.upd s l := by
  intro k
  induction k with
  | zero =>
    intro l hl s
    have : l = [] := List.length_eq_zero.mp (Nat.le_zero.mp hl)
    subst this
    simp [chunksOf, HashAlgo.upd]
  | succ k ih =>
    intro l hl s
    cases l with
    | nil => simp [chunksOf, HashAlgo.upd]
    | cons a t =>
      have hsplit : (a :: t).take n ++ List.drop (n - 1) t = a :: t := by
        obtain ⟨m, rfl⟩ := Nat.exists_eq_add_of_le hn
        simp only [Nat.add_comm 1 m, Nat.add_sub_cancel, List.take_succ_cons,
          List.cons_append, List.take_append_drop]
      have hdrop : (List.drop (n - 1) t).length ≤ k := by
        have h1 : (List.drop (n - 1) t).length ≤ t.length := by
          rw [List.length_drop]
          omega
        have h2 : t.length ≤ k := by
          simpa using hl
        omega
      simp only [chunksOf, List.foldl_cons]
      rw [ih _ hdrop, ← HashAlgo.upd_append, hsplit]

/-- Claim C10: the hex digest is a function of the byte content alone,
and the two chunked implementations — `Storage.hash_file` with
8192-byte chunks and `FilesystemStorage.get_hash` with 131072-byte
chunks — both equal the digest of the whole content, hence each
other, for every streaming digest algorithm. -/
theorem hash_chunk_equivalence (A : HashAlgo) (content : List Nat) :
    hash_file A content = A.hex (A.upd A.init content) ∧
    get_hash A content = A.hex (A.upd A.init content) ∧
    hash_file A content = get_hash A content := by
  have h1 : hash_file A content = A.hex (A.upd A.init content) := by
    unfold hash_file
    rw [foldl_chunksOf A 8192 (by norm_num) content.length content le_rfl]
  have h2 : get_hash A content = A.hex (A.upd A.init content) := by
    unfold get_hash
    rw [foldl_chunksOf A (128 * 1024) (by norm_num) content.length content le_rfl]
  exact ⟨h1, h2, h1.trans h2.symm⟩

/-! ## Lemmas for `find` (claim C8) -/

theorem lexLe_append_left (c a b : List String) :
    lexLe (c ++ a) (c ++ b) = lexLe a b := by
  induction c with
  | nil => rfl
  | cons x xs ih =>
    simp only [List.cons_append, lexLe, lt_irrefl, if_false, List.append_eq, ih]

theorem orderedInsert_map {α β : Type} (r : α → α → Prop) (r' : β → β → Prop)
    [DecidableRel r] [DecidableRel r'] (f : β → α)
    (hf : ∀ x y, r (f x) (f y) ↔ r' x y) (a : β) (l : List β) :
    List.orderedInsert r (f a) (l.map f) = (List.orderedInsert r' a l).map f := by
  induction l with
  | nil => rfl
  | cons b bs ih =>
    simp only [List.map_cons, List.orderedInsert]
    by_cases h : r' a b
    · rw [if_pos ((hf a b).mpr h), if_pos h]
      simp
    · rw [if_neg (fun hc => h ((hf a b).mp hc)), if_neg h]
      simp [ih]

theorem insertionSort_map {α β : Type} (r : α → α → Prop) (r' : β → β → Prop)
    [DecidableRel r] [DecidableRel r'] (f : β → α)
    (hf : ∀ x y, r (f x) (f y) ↔ r' x y) (l : List β) :
    List.insertionSort r (l.map f) = (List.insertionSort r' l).map f := by
  induction l with
  | nil => rfl
  | cons b bs ih =>
    simp only [List.map_cons, List.insertionSort, ih]
    exact orderedInsert_map r r' f hf b _

theorem relTo_abs (R s : List String) :
    relTo ⟨true, R⟩ ⟨true, R ++ s⟩ = some s := by
  simp [relTo, List.take_left, List.drop_left]

theorem mapM_eq_some_map {α β : Type} (g : α → Option β) (h : α → β)
    (l : List α) (hg : ∀ x ∈ l, g x = some (h x)) :
    l.mapM g = some (l.map h) := by
  induction l with
  | nil => rfl
  | cons a as ih =>
    rw [List.mapM_cons, hg a (by simp)]
    rw [ih (fun x hx => hg x (by simp [hx]))]
    rfl

/-- On an absolute root, `pathlib`'s `pth / subpath` quirk is inert
(the absolute subpath replaces `pth`), and `walk` enumerates exactly
the relative descendants prefixed by the root's segments. -/
theorem walkL_abs_bounded :
    ∀ (k : Nat) (cs : List FSTree), sizeOf cs ≤ k →
      ∀ (R : List String) (dirs : Bool),
        walkL ⟨true, R⟩ dirs cs =
          (relWalk dirs cs).map (fun s => PPath.mk true (R ++ s)) := by
  intro k
  induction k with
  | zero =>
    intro cs hcs R dirs
    cases cs with
    | nil => simp [walkL, relWalk]
    | cons t ts => simp at hcs
  | succ k ih =>
    intro cs hcs R dirs
    cases cs with
    | nil => simp [walkL, relWalk]
    | cons t ts =>
      cases t with
      | file n =>
        have hts : sizeOf ts ≤ k := by simp at hcs; omega
        simp only [walkL, relWalk, List.map_cons, PPath.child, ih ts hts]
      | dir n ccs =>
        have hts : sizeOf ts ≤ k := by simp at hcs; omega
        have hccs : sizeOf ccs ≤ k := by simp at hcs; omega
        simp only [walkL, relWalk, PPath.child, ih ts hts, ih ccs hccs]
        simp only [List.map_append, List.map_map, List.map_cons]
        cases dirs <;>
          simp [pjoin, Function.comp, List.append_assoc]

/-- Every element of `relWalk` is a nonempty segment list whose head is
the name of some direct child. -/
theorem relWalk_shape_bounded :
    ∀ (k : Nat) (cs : List FSTree), sizeOf cs ≤ k →
      ∀ (dirs : Bool) (s : List String), s ∈ relWalk dirs cs →
        ∃ m r, s = m :: r ∧ m ∈ cs.map treeName := by
  intro k
  induction k with
  | zero =>
    intro cs hcs dirs s hs
    cases cs with
    | nil => simp [relWalk] at hs
    | cons t ts => simp at hcs
  | succ k ih =>
    intro cs hcs dirs s hs
    cases cs with
    | nil => simp [relWalk] at hs
    | cons t ts =>
      cases t with
      | file n =>
        have hts : sizeOf ts ≤ k := by simp at hcs; omega
        simp only [relWalk, List.mem_cons] at hs
        rcases hs with rfl | hs
        · exact ⟨n, [], rfl, by simp [treeName]⟩
        · obtain ⟨m, r, rfl, hm⟩ := ih ts hts dirs s hs
          exact ⟨m, r, rfl, by simp [List.map_cons, List.mem_cons]; right; exact (List.mem_map.mp hm).imp (fun x hx => hx)⟩
      | dir n ccs =>
        have hts : sizeOf ts ≤ k := by simp at hcs; omega
        simp only [relWalk, List.mem_append, List.mem_map] at hs
        rcases hs with (hs | ⟨x, _, rfl⟩) | hs
        · cases dirs with
          | false => simp at hs
          | true =>
            simp at hs
            exact ⟨n, [], hs, by simp [treeName]⟩
        · exact ⟨n, x, rfl, by simp [treeName]⟩
        · obtain ⟨m, r, rfl, hm⟩ := ih ts hts dirs s hs
          exact ⟨m, r, rfl, by simp [List.map_cons, List.mem_cons]; right; exact (List.mem_map.mp hm).imp (fun x hx => hx)⟩

theorem isEntry_nil_right (dirs : Bool) (cs : List FSTree) :
    isEntry dirs cs [] = false := by
  cases cs <;> simp [isEntry]

theorem isEntry_file_one (dirs : Bool) (n : String) (ts : List FSTree)
    (m : String) :
    isEntry dirs (.file n :: ts) [m] = (decide (n = m) || isEntry dirs ts [m]) := by
  simp only [isEntry]

theorem isEntry_file_long (dirs : Bool) (n : String) (ts : List FSTree)
    (m x : String) (xs : List String) :
    isEntry dirs (.file n :: ts) (m :: x :: xs) = isEntry dirs ts (m :: x :: xs) := by
  simp only [isEntry, Bool.false_or]

theorem isEntry_dir_one (dirs : Bool) (n : String) (ccs ts : List FSTree)
    (m : String) :
    isEntry dirs (.dir n ccs :: ts) [m] =
      ((dirs && decide (n = m)) || isEntry dirs ts [m]) := by
  simp only [isEntry]

theorem isEntry_dir_long (dirs : Bool) (n : String) (ccs ts : List FSTree)
    (m x : String) (xs : List String) :
    isEntry dirs (.dir n ccs :: ts) (m :: x :: xs) =
      ((decide (n = m) && isEntry dirs ccs (x :: xs)) ||
        isEntry dirs ts (m :: x :: xs)) := by
  simp only [isEntry]

/-- `relWalk` contains exactly the entries `isEntry` describes. -/
theorem relWalk_mem_bounded :
    ∀ (k : Nat) (cs : List FSTree), sizeOf cs ≤ k →
      ∀ (dirs : Bool) (s : List String),
        s ∈ relWalk dirs cs ↔ isEntry dirs cs s = true := by
  intro k
  induction k with
  | zero =>
    intro cs hcs dirs s
    cases cs with
    | nil => simp [relWalk, isEntry]
    | cons t ts => simp at hcs
  | succ k ih =>
    intro cs hcs dirs s
    cases cs with
    | nil => simp [relWalk, isEntry]
    | cons t ts =>
      cases t with
      | file n =>
        have hts : sizeOf ts ≤ k := by simp at hcs; omega
        cases s with
        | nil =>
          rw [isEntry_nil_right]
          simp only [relWalk, List.mem_cons, ih ts hts dirs [], isEntry_nil_right]
          simp
        | cons m r =>
          cases r with
          | nil =>
            rw [isEntry_file_one]
            simp only [relWalk, List.mem_cons, ih ts hts dirs [m]]
            simp [List.cons_eq_cons, @eq_comm String m n]
          | cons x xs =>
            rw [isEntry_file_long]
            simp only [relWalk, List.mem_cons, ih ts hts dirs (m :: x :: xs)]
            simp
      | dir n ccs =>
        have hts : sizeOf ts ≤ k := by simp at hcs; omega
        have hccs : sizeOf ccs ≤ k := by simp at hcs; omega
        cases s with
        | nil =>
          rw [isEntry_nil_right]
          simp only [relWalk, List.mem_append, List.mem_map,
            ih ts hts dirs [], isEntry_nil_right]
          cases dirs <;> simp
        | cons m r =>
          have hnilcc : ([] : List String) ∉ relWalk dirs ccs := fun hmem => by
            obtain ⟨m', r', heq, _⟩ := relWalk_shape_bounded k ccs hccs dirs [] hmem
            exact List.noConfusion heq
          cases r with
          | nil =>
            rw [isEntry_dir_one]
            have h2 : ¬∃ y ∈ relWalk dirs ccs, n :: y = [m] := by
              rintro ⟨y, hy, heq⟩
              obtain ⟨-, rfl⟩ := List.cons_eq_cons.mp heq
              exact hnilcc hy
            simp only [relWalk, List.mem_append, List.mem_map,
              ih ts hts dirs [m]]
            simp only [h2, false_or]
            cases dirs <;> simp [List.cons_eq_cons, @eq_comm String m n]
          | cons x xs =>
            rw [isEntry_dir_long]
            have h2 : (∃ y ∈ relWalk dirs ccs, n :: y = m :: x :: xs) ↔
                (n = m ∧ isEntry dirs ccs (x :: xs) = true) := by
              rw [← ih ccs hccs dirs (x :: xs)]
              constructor
              · rintro ⟨y, hy, heq⟩
                obtain ⟨hnm, rfl⟩ := List.cons_eq_cons.mp heq
                exact ⟨hnm, hy⟩
              · rintro ⟨rfl, hy⟩
                exact ⟨x :: xs, hy, rfl⟩
            simp only [relWalk, List.mem_append, List.mem_map,
              ih ts hts dirs (m :: x :: xs), h2]
            cases dirs <;> simp

/-- On a forest with distinct sibling names, `relWalk` enumerates each
descendant exactly once. -/
theorem relWalk_nodup_bounded :
    ∀ (k : Nat) (cs : List FSTree), sizeOf cs ≤ k → ∀ (dirs : Bool),
      goodForest cs = true → (relWalk dirs cs).Nodup := by
  intro k
  induction k with
  | zero =>
    intro cs hcs dirs _
    cases cs with
    | nil => simp [relWalk]
    | cons t ts => simp at hcs
  | succ k ih =>
    intro cs hcs dirs hgood
    cases cs with
    | nil => simp [relWalk]
    | cons t ts =>
      cases t with
      | file n =>
        have hts : sizeOf ts ≤ k := by simp at hcs; omega
        simp only [goodForest, treeName, Bool.and_eq_true, Bool.not_eq_true',
          decide_eq_false_iff_not] at hgood
        obtain ⟨⟨hname, -⟩, hgts⟩ := hgood
        simp only [relWalk, List.nodup_cons]
        refine ⟨fun hmem => ?_, ih ts hts dirs hgts⟩
        obtain ⟨m, r, heq, hm⟩ := relWalk_shape_bounded k ts hts dirs [n] hmem
        obtain ⟨rfl, -⟩ := List.cons_eq_cons.mp heq
        exact hname hm
      | dir n ccs =>
        have hts : sizeOf ts ≤ k := by simp at hcs; omega
        have hccs : sizeOf ccs ≤ k := by simp at hcs; omega
        simp only [goodForest, treeName, Bool.and_eq_true, Bool.not_eq_true',
          decide_eq_false_iff_not] at hgood
        obtain ⟨⟨hname, hgccs⟩, hgts⟩ := hgood
        have hnilcc : ([] : List String) ∉ relWalk dirs ccs := fun hmem => by
          obtain ⟨m', r', heq, _⟩ := relWalk_shape_bounded k ccs hccs dirs [] hmem
          exact List.noConfusion heq
        have hBnodup : (List.map (fun s => n :: s) (relWalk dirs ccs)).Nodup := by
          refine List.Nodup.map ?_ (ih ccs hccs dirs hgccs)
          intro a b hab
          simpa using hab
        have hCnodup : (relWalk dirs ts).Nodup := ih ts hts dirs hgts
        have hCshape : ∀ s ∈ relWalk dirs ts, ∃ m r, s = m :: r ∧
            m ∈ ts.map treeName := fun s hs =>
          relWalk_shape_bounded k ts hts dirs s hs
        have hBC : List.Disjoint (List.map (fun s => n :: s) (relWalk dirs ccs))
            (relWalk dirs ts) := by
          intro a haB haC
          obtain ⟨y, -, rfl⟩ := List.mem_map.mp haB
          obtain ⟨m, r, heq, hm⟩ := hCshape _ haC
          obtain ⟨rfl, -⟩ := List.cons_eq_cons.mp heq
          exact hname hm
        cases dirs with
        | false =>
          simp only [relWalk, Bool.false_eq_true, if_false, List.nil_append,
            List.nodup_append]
          exact ⟨hBnodup, hCnodup, hBC⟩
        | true =>
          simp only [relWalk, if_true, List.singleton_append, List.nodup_cons,
            List.nodup_append]
          refine ⟨⟨?_, hBnodup⟩, hCnodup, ?_⟩
          · intro hmem
            obtain ⟨y, hy, heq⟩ := List.mem_map.mp hmem
            obtain ⟨-, rfl⟩ := List.cons_eq_cons.mp heq.symm
            exact hnilcc hy
          · intro a ha hc
            rcases List.mem_cons.mp ha with rfl | haB
            · obtain ⟨m, r, heq, hm⟩ := hCshape _ hc
              obtain ⟨rfl, -⟩ := List.cons_eq_cons.mp heq
              exact hname hm
            · exact hBC haB hc

/-- On an absolute root, `find` renders exactly the sorted relative
descendant enumeration. -/
theorem find_abs_eq (R : List String) (cs : List FSTree) (dirs : Bool) :
    find ⟨true, R⟩ cs dirs = some (findSpec cs dirs) := by
  have hf : ∀ a b : List String,
      pathLe (PPath.mk true (R ++ a)) (PPath.mk true (R ++ b)) ↔ segLe a b := by
    intro a b
    unfold pathLe segLe cparts
    have h1 : (["/"] ++ (R ++ a) : List String) = ("/" :: R) ++ a := by simp
    have h2 : (["/"] ++ (R ++ b) : List String) = ("/" :: R) ++ b := by simp
    simp only [if_pos]
    rw [h1, h2, lexLe_append_left]
  have hwalk := walkL_abs_bounded (sizeOf cs) cs le_rfl R dirs
  simp only [find, hwalk]
  rw [insertionSort_map pathLe segLe (fun s => PPath.mk true (R ++ s)) hf]
  have hmapm :
      (List.map (fun s => PPath.mk true (R ++ s))
          (List.insertionSort segLe (relWalk dirs cs))).mapM
        (relTo ⟨true, R⟩) =
      some (List.map (fun p => List.drop R.length p.segs)
        (List.map (fun s => PPath.mk true (R ++ s))
          (List.insertionSort segLe (relWalk dirs cs)))) := by
    apply mapM_eq_some_map
    intro x hx
    obtain ⟨s, _, rfl⟩ := List.mem_map.mp hx
    rw [relTo_abs]
    simp [List.drop_left]
  rw [hmapm]
  simp only [List.map_map, findSpec, Option.bind_eq_bind, Option.some_bind]
  have hmaps : List.map (String.intercalate "/" ∘
        (fun p => List.drop R.length p.segs) ∘
        fun s => PPath.mk true (R ++ s))
      (List.insertionSort segLe (relWalk dirs cs)) =
      List.map (String.intercalate "/")
        (List.insertionSort segLe (relWalk dirs cs)) := by
    apply List.map_congr_left
    intro s _
    simp [Function.comp, List.drop_left]
  rw [hmaps]
  rfl

/-- Claim C8 (amended): for every directory tree whose root path `R`
is absolute, `find(R, dirs)` returns the newline-joined, path-order
sorted list of exactly the descendant paths of `R` expressed relative
to `R` — membership in the enumeration coincides with being a
descendant entry (directories included exactly when `dirs`), and on
trees with distinct sibling names every entry appears exactly once.
(For a relative root the `pth / subpath` join duplicates path
prefixes, so the claim as stated fails; see the counterexample.) -/
theorem find_absolute_behavior (root : PPath) (cs : List FSTree)
    (dirs : Bool) (habs : root.isAbs = true) :
    find root cs dirs = some (findSpec cs dirs) ∧
    (∀ segs, segs ∈ relWalk dirs cs ↔ isEntry dirs cs segs = true) ∧
    (goodForest cs = true → (relWalk dirs cs).Nodup) := by
  obtain ⟨ab, R⟩ := root
  simp only at habs
  subst habs
  exact ⟨find_abs_eq R cs dirs,
    fun segs => relWalk_mem_bounded (sizeOf cs) cs le_rfl dirs segs,
    fun hg => relWalk_nodup_bounded (sizeOf cs) cs le_rfl dirs hg⟩

/-- Witness for C8 (amended): on the absolute root `/m` with tree
`a/f` and `z`, `find` returns the sorted relative listing, and the
membership characterization holds at the entry `a/f`. -/
theorem find_absolute_behavior_witness :
    find ⟨true, ["m"]⟩ [FSTree.dir "a" [FSTree.file "f"], FSTree.file "z"] true =
      some "a\na/f\nz" ∧
    (["a", "f"] ∈ relWalk true [FSTree.dir "a" [FSTree.file "f"], FSTree.file "z"] ↔
      isEntry true [FSTree.dir "a" [FSTree.file "f"], FSTree.file "z"]
        ["a", "f"] = true) := by
  constructor
  · have h := (find_absolute_behavior ⟨true, ["m"]⟩
        [FSTree.dir "a" [FSTree.file "f"], FSTree.file "z"] true rfl).1
    rw [h]
    simp [findSpec, relWalk, List.insertionSort, List.orderedInsert, segLe,
      lexLe, String.intercalate, String.intercalate.go]
  · exact (find_absolute_behavior ⟨true, ["m"]⟩
      [FSTree.dir "a" [FSTree.file "f"], FSTree.file "z"] true rfl).2.1 ["a", "f"]

/-- Counterexample to claim C8: on the relative root `r` with the tree
`a/f`, `walk`'s `pth / subpath` join duplicates the prefix, so `find`
returns `a` and `a/r/a/f` instead of the descendant listing `a` and
`a/f` — the claim fails for relative roots. -/
theorem find_relative_root_counterexample :
    find ⟨false, ["r"]⟩ [FSTree.dir "a" [FSTree.file "f"]] true =
      some "a\na/r/a/f" ∧
    findSpec [FSTree.dir "a" [FSTree.file "f"]] true = "a\na/f" ∧
    find ⟨false, ["r"]⟩ [FSTree.dir "a" [FSTree.file "f"]] true ≠
      some (findSpec [FSTree.dir "a" [FSTree.file "f"]] true) := by
  have h1 : find ⟨false, ["r"]⟩ [FSTree.dir "a" [FSTree.file "f"]] true =
      some "a\na/r/a/f" := by
    simp [find, walkL, PPath.child, pjoin, List.insertionSort,
      List.orderedInsert, pathLe, cparts, lexLe, relTo, String.intercalate,
      List.mapM, List.mapM.loop, String.intercalate.go]
  have h2 : findSpec [FSTree.dir "a" [FSTree.file "f"]] true = "a\na/f" := by
    simp [findSpec, relWalk, List.insertionSort, List.orderedInsert, segLe,
      lexLe, String.intercalate, String.intercalate.go]
  refine ⟨h1, h2, ?_⟩
  rw [h1, h2]
  decide

end Bandersnatch
